import Mathlib

/-!
# Verification of the deduplicator's label algebra, metrics, blocking and engine glue

Shallow embedding of the relevant parts of `imvladikon/deduplicator`
(files `deduplicator/utils/er_utils.py`, `deduplicator/metrics/functional.py`,
`deduplicator/utils/iter_utils.py`,
`deduplicator/blockings/pruners/sorted_neighbourhood_splitter.py`,
`deduplicator/blockings/rules/blocking_rule_base.py`,
`deduplicator/blockings/rules/group_by_logical_operations.py`,
`deduplicator/clusterings/dbscan_clusterer.py`, `deduplicator/deduplicator.py`),
together with theorems settling the frozen claims about those functions.

Conventions:
* Python `int` labels are modelled as `Int` (the sentinel `-1` is significant).
* Mention ids / list indices are `Nat`.
* Python lists indexed by mention id are modelled either as `List` or, for the
  mutable arrays of `pairs_to_labels`, as total functions `Nat → _` updated with
  `Function.update`; all claims constrain indices to be in range, where the
  Python originals would raise `IndexError` anyway.
-/

namespace Dedup

/-! ## `er_utils.labels_to_pairs`

Python (er_utils.py, lines 59-79):
```
assert -1 not in labels
pairs = []
clusters_dict = \x7b\x7d
for node, label in enumerate(labels):
    for linked_node in clusters_dict.get(label, []):
        pairs.append((node, linked_node))
    clusters_dict.setdefault(label, []).append(node)
return pairs
```
`clusters_dict` is modelled as a total function `Int → List Nat` that returns
`[]` for unseen labels (matching `dict.get(label, [])`). -/

/-- One step of the `labels_to_pairs` loop: `node` is the current index,
`d` the accumulated `clusters_dict`. -/
def ltpAux : List Int → Nat → (Int → List Nat) → List (Nat × Nat)
  | [], _, _ => []
  | l :: rest, node, d =>
      ((d l).map fun j => (node, j)) ++
        ltpAux rest (node + 1) (fun v => if v = l then d v ++ [node] else d v)

/-- Python `labels_to_pairs` from `er_utils.py`: all intra-cluster pairs of a label
vector, each emitted as `(node, linked_node)` with the previously seen
(`linked_node < node`) member second.  The Python `assert -1 not in labels`
only guards the call; it does not change the value on assertion-free inputs. -/
def labels_to_pairs (labels : List Int) : List (Nat × Nat) :=
  ltpAux labels 0 (fun _ => [])

/-! ## `er_utils.pairs_to_labels`

Python (er_utils.py, lines 82-116) builds `node_matches = [{i} for i in range(N)]`
and for each pair `(a, b)` executes
`node_matches[a].update(node_matches[b]); node_matches[b] = node_matches[a]`.
Python set objects are shared by reference, so the state is modelled as
* `ptr : Nat → Nat` — which set object each index currently references
  (object names are the initial indices), and
* `store : Nat → Finset Nat` — the contents of each set object.
`node_matches[x]` is `store (ptr x)`. -/

/-- Aliasing state of the `node_matches` list: `(ptr, store)`. -/
abbrev PtlState := (Nat → Nat) × (Nat → Finset Nat)

/-- Effect of `node_matches[a].update(node_matches[b]);
node_matches[b] = node_matches[a]` on the aliasing state. -/
def ptlStep (s : PtlState) (p : Nat × Nat) : PtlState :=
  (Function.update s.1 p.2 (s.1 p.1),
   Function.update s.2 (s.1 p.1) (s.2 (s.1 p.1) ∪ s.2 (s.1 p.2)))

/-- State after processing all pairs, starting from `node_matches = [{i}]`. -/
def ptlState (pairs : List (Nat × Nat)) : PtlState :=
  pairs.foldl ptlStep (id, fun i => {i})

/-- The final contents of `node_matches[x]`. -/
def nodeMatches (pairs : List (Nat × Nat)) (x : Nat) : Finset Nat :=
  (ptlState pairs).2 ((ptlState pairs).1 x)

/-- One step of the label-assignment loop of `pairs_to_labels`:
state is `(final_labels, cluster_idx)`; `n` the current node.  Python:
```
if final_labels[node] > -1: continue
if drop_singletons and (len(linked_nodes) == 1): continue
for l_node in linked_nodes: final_labels[l_node] = cluster_idx
cluster_idx += 1
```
-/
def labStep (M : Nat → Finset Nat) (ds : Bool) (s : (Nat → Int) × Nat) (n : Nat) :
    (Nat → Int) × Nat :=
  if 0 ≤ s.1 n then s
  else if ds ∧ (M n).card = 1 then s
  else ((fun y => if y ∈ M n then (s.2 : Int) else s.1 y), s.2 + 1)

/-- Python `pairs_to_labels` from `er_utils.py`. -/
def pairs_to_labels (pairs : List (Nat × Nat)) (total_mentions : Nat)
    (drop_singletons : Bool) : List Int :=
  let M := nodeMatches pairs
  let final := (List.range total_mentions).foldl (labStep M drop_singletons)
    ((fun _ => -1), 0)
  (List.range total_mentions).map final.1

/-- The undirected link relation denoted by a pair list: `x` and `y` are linked
when the list contains the pair in either orientation ("as a set of unordered
pairs"). -/
def linkRel (pairs : List (Nat × Nat)) (x y : Nat) : Prop :=
  (x, y) ∈ pairs ∨ (y, x) ∈ pairs

instance (pairs : List (Nat × Nat)) (x y : Nat) : Decidable (linkRel pairs x y) := by
  unfold linkRel; infer_instance

/-- Reflexive closure of `linkRel`: "same cluster" for a transitively closed
pair list. -/
def compRel (pairs : List (Nat × Nat)) (x y : Nat) : Prop :=
  x = y ∨ linkRel pairs x y

/-- Invariant of the aliasing state during the pair-processing loop of
`pairs_to_labels`: every index is a member of its own set, and a set holds
only same-cluster indices, each of them either the owner itself or in range. -/
def ptlInv (pairs : List (Nat × Nat)) (N : Nat) (S : PtlState) : Prop :=
  ∀ x, x ∈ S.2 (S.1 x) ∧
    ∀ y ∈ S.2 (S.1 x), compRel pairs x y ∧ (y = x ∨ y < N)

/-- Invariant of the label-assignment loop of `pairs_to_labels` after the
nodes in `done` have been visited: labels are below the running counter,
assigned only to in-range nodes, equal labels mean same cluster, visited
nodes are labelled, and clusters are labelled uniformly. -/
def labInv (pairs : List (Nat × Nat)) (N : Nat) (done : List Nat)
    (s : (Nat → Int) × Nat) : Prop :=
  (∀ y, 0 ≤ s.1 y → s.1 y < (s.2 : Int)) ∧
  (∀ y, 0 ≤ s.1 y → y < N) ∧
  (∀ y z, 0 ≤ s.1 y → s.1 y = s.1 z → compRel pairs y z) ∧
  (∀ i ∈ done, 0 ≤ s.1 i) ∧
  (∀ y z, compRel pairs y z → y < N → z < N → 0 ≤ s.1 y → s.1 y = s.1 z)

/-! ## `er_utils.clusters_to_labels`

Python (er_utils.py, lines 119-151).  Each cluster is a Python dict whose keys
are mention ids plus the special string key `"cluster_id"` (skipped by the
loop); a cluster is therefore modelled as its `List Nat` of mention ids, which
is duplicate-free because dict keys are unique.  The raised
`ValueError(f'mention ... is present in two clusters')` is modelled as `none`. -/

/-- Inner loop of `clusters_to_labels` for a single cluster: raise (`none`) if
a node is already assigned, else assign `idx` to it. -/
def assignCluster (labels : Nat → Int) (idx : Nat) :
    List Nat → Option (Nat → Int)
  | [] => some labels
  | node :: rest =>
      if 0 ≤ labels node then none
      else assignCluster (Function.update labels node (idx : Int)) idx rest

/-- Outer loop of `clusters_to_labels` over the cluster list. -/
def assignAll : List (List Nat) → Nat → (Nat → Int) → Option (Nat → Int)
  | [], _, labels => some labels
  | c :: cs, idx, labels =>
      match assignCluster labels idx c with
      | none => none
      | some l => assignAll cs (idx + 1) l

/-- Python `clusters_to_labels` from `er_utils.py`: assign cluster indices, raising on
duplicate membership (`none`); unless `drop_singletons`, remaining `-1` entries
then get fresh increasing labels starting at `len(clusters)`. -/
def clusters_to_labels (clusters : List (List Nat)) (total_mentions : Nat)
    (drop_singletons : Bool) : Option (List Int) :=
  match assignAll clusters 0 (fun _ => -1) with
  | none => none
  | some labels =>
      let final :=
        if drop_singletons then labels
        else ((List.range total_mentions).foldl
          (fun (s : (Nat → Int) × Nat) n =>
            if s.1 n = -1 then (Function.update s.1 n (s.2 : Int), s.2 + 1) else s)
          (labels, clusters.length)).1
      some ((List.range total_mentions).map final)

/-! ## `metrics/functional.py`: pair counting and the confusion matrix -/

/-- Combination count `C(n, 2) = n·(n−1)/2`, the pair count used throughout `functional.py`
(`scipy.special.comb(n, 2)` on integer inputs). -/
def comb2 (n : Nat) : Nat := Nat.choose n 2

/-- Python `np.unique(l, return_counts=True)` followed by `Σ C(count, 2)`: the sum of
`C(cell size, 2)` over the distinct values of `l`.  Used for `tp` (on the list
of `(pred, true)` joint values), `p` and `t` in `confusion_matrix`. -/
def sumComb2 {α : Type} [DecidableEq α] (l : List α) : Nat :=
  (l.dedup.map fun v => comb2 (l.count v)).sum

/-- The number of unordered pairs of positions of `l` holding equal values —
what the spec calls "the number of same-predicted (resp. same-true) pairs".
Recursively: the head forms a pair with each later equal entry. -/
def numSamePairs {α : Type} [DecidableEq α] : List α → Nat
  | [] => 0
  | x :: rest => rest.count x + numSamePairs rest

/-- Result record of `confusion_matrix`. -/
structure ConfusionMatrix where
  TP : Int
  FP : Int
  FN : Int
  TN : Int
  deriving DecidableEq, Repr

/-- Python `confusion_matrix` from `metrics/functional.py` (lines 105-129):
`tp` from the joint `(pred, true)` cells, `p` from the predicted cells,
`t` from the true cells, then `fp = p − tp`, `fn = t − tp`,
`tn = C(len(pred_labels), 2) − p − fn`. -/
def confusion_matrix (true_labels pred_labels : List Int) : ConfusionMatrix :=
  let tp : Int := sumComb2 (pred_labels.zip true_labels)
  let p : Int := sumComb2 pred_labels
  let t : Int := sumComb2 true_labels
  { TP := tp
    FP := p - tp
    FN := t - tp
    TN := comb2 pred_labels.length - p - (t - tp) }

/-! ## `metrics/functional.py`: blocking-efficiency metrics -/

/-- Python `reduction_ratio` (functional.py, lines 22-38): `0` if either operand is
`None` or `before == 0`, else `(1 − after/before)·100`.  Counts are naturals,
the result is rational (Python float arithmetic on integer counts is exact
here). -/
def reduction_ratio (operations_before_blocking operations_after_blocking :
    Option Nat) : ℚ :=
  match operations_before_blocking, operations_after_blocking with
  | none, _ => 0
  | _, none => 0
  | some b, some a => if b = 0 then 0 else (1 - (a : ℚ) / (b : ℚ)) * 100

/-- Python `comparison_efficiency` (functional.py, lines 41-60): `1` if either operand
is `None`, `math.inf` (modelled as `⊤`) if `after == 0`, else `before/after`. -/
def comparison_efficiency (operations_before_blocking operations_after_blocking :
    Option Nat) : WithTop ℚ :=
  match operations_before_blocking, operations_after_blocking with
  | none, _ => 1
  | _, none => 1
  | some b, some a => if a = 0 then ⊤ else ((b : ℚ) / (a : ℚ) : ℚ)

/-! ## `iter_utils.sliding_window` and the sorted-neighbourhood splitter

Python (iter_utils.py, lines 165-186):
```
start, end = 0, window_size
while True:
    window = deque(islice(seq, start, end))
    yield tuple(window)
    start += step_size; end += step_size
    if len(window) < window_size: break
```
Note the window is yielded before the length test, so a trailing short window
is yielded.  The loop is modelled with fuel `seq.length + 1`, which is enough
whenever `step_size ≥ 1` (each full-window iteration advances `start`). -/

/-- Fuelled body of the `sliding_window` loop. -/
def swAux {α : Type} (seq : List α) (w s : Nat) : Nat → Nat → List (List α)
  | 0, _ => []
  | fuel + 1, start =>
      let win := (seq.drop start).take w
      if win.length < w then [win] else win :: swAux seq w s fuel (start + s)

/-- Python `sliding_window` from `iter_utils.py`. -/
def sliding_window {α : Type} (seq : List α) (window_size step_size : Nat) :
    List (List α) :=
  swAux seq window_size step_size (seq.length + 1) 0

/-- Python `SortedNeighbourhoodBlockSplitter.__call__`
(sorted_neighbourhood_splitter.py, lines 40-54): emit the block unchanged when
`len(block) ≤ max_block_size`, else sort it by the key (Python `sorted` is
stable, as is `List.insertionSort`) and emit each sliding window as a sub-block
with the parent `block_id`. -/
def snb_split {α γ : Type} (max_block_size window_size step_size : Nat)
    (key : α → Nat) (block_id : γ) (block : List α) : List (γ × List α) :=
  if block.length ≤ max_block_size then [(block_id, block)]
  else
    (sliding_window (block.insertionSort fun x y => key x ≤ key y)
      window_size step_size).map fun w => (block_id, w)

/-! ## `blocking_rule_base.py` / `group_by_logical_operations.py`

A child rule enters `GroupByLogicalOR.fit` only through its grouping (label
vector): at `level="groups"` via `get_path_graph` (which calls
`make_groups(self, df)`), at `level="graph"` via `get_graph` whose `.graph`
property materialises `graph_from_groups` (all intra-group edges).  A child is
therefore modelled by its label function `L : Nat → β` on row indices
`0, …, n-1`; a rule tree with a dataset denotes such a list of label
functions.  `igraph` is an external library: `ig.union` is edge-set union and
`Graph.clusters().membership` is the connected-component partition, so the
induced equivalence is modelled as reflexive-transitive closure of the
symmetrised edge relation. -/

/-- The row indices of group `v`: `pd.DataFrame(...).groupby("groups").indices`
lists, for each group value, its row positions in increasing order. -/
def groupMembers {β : Type} [DecidableEq β] (L : Nat → β) (n : Nat) (v : β) :
    List Nat :=
  (List.range n).filter fun i => L i = v

/-- Python `iter_pairwise` (iter_utils.py, lines 32-39): consecutive pairs of a list. -/
def iter_pairwise {α : Type} (l : List α) : List (α × α) :=
  l.zip l.tail

/-- Python `itertools.combinations(c, 2)`: all ordered-by-position pairs of a list. -/
def combos2 {α : Type} : List α → List (α × α)
  | [] => []
  | x :: rest => (rest.map fun y => (x, y)) ++ combos2 rest

/-- Edges of `get_path_graph` (blocking_rule_base.py, lines 100-112): for each
group, its members connected as a path in index order. -/
def pathEdges {β : Type} [DecidableEq β] (L : Nat → β) (n : Nat) :
    List (Nat × Nat) :=
  (((List.range n).map L).dedup).flatMap fun v => iter_pairwise (groupMembers L n v)

/-- Edges of `graph_from_groups` (blocking_rule_base.py, lines 120-126): all
intra-group pairs (`itertools.combinations(c, 2)`), the clique graph. -/
def cliqueEdges {β : Type} [DecidableEq β] (L : Nat → β) (n : Nat) :
    List (Nat × Nat) :=
  (((List.range n).map L).dedup).flatMap fun v => combos2 (groupMembers L n v)

/-- Python `ig.union` of the children's path graphs
(`GroupByLogicalOR.fit`, `level="groups"` branch). -/
def orGroupsEdges {β : Type} [DecidableEq β] (rules : List (Nat → β)) (n : Nat) :
    List (Nat × Nat) :=
  rules.flatMap fun L => pathEdges L n

/-- Python `ig.union` of the children's clique graphs
(`GroupByLogicalOR.fit`, `level="graph"` branch). -/
def orGraphEdges {β : Type} [DecidableEq β] (rules : List (Nat → β)) (n : Nat) :
    List (Nat × Nat) :=
  rules.flatMap fun L => cliqueEdges L n

/-- Connected-component equivalence of an undirected edge list
(`Graph.clusters().membership` identifies `a` and `b` iff they are joined by a
path). -/
def sameComponent (edges : List (Nat × Nat)) (a b : Nat) : Prop :=
  Relation.ReflTransGen (fun x y => (x, y) ∈ edges ∨ (y, x) ∈ edges) a b

/-- The join (in the lattice of equivalence relations on rows `0, …, n-1`) of
the children's "same label" equivalences: the equivalence closure of the union
of the relations "`x` and `y` are rows below `n` given equal labels by some
child". -/
def joinOfRules {β : Type} (rules : List (Nat → β)) (n : Nat) (a b : Nat) :
    Prop :=
  Relation.EqvGen (fun x y => x < n ∧ y < n ∧ ∃ L ∈ rules, L x = L y) a b

/-! ## `deduplicator.py`: output assembly and worker-count default -/

/-- Python `Deduplicator.to_iter` (deduplicator.py, lines 69-78): one output cluster
per distinct label other than `-1`, whose member list collects, in input
order, the records whose label equals it.  The Python generator yields
`(cluster_id, members)` with a fresh UUID `cluster_id`; UUIDs come from an
external RNG and no claim concerns them, so the distinct label stands in for
the cluster id.  `set(cluster_labels) - \x7b-1\x7d` iterates in an unspecified
order; first-occurrence order is used, which fixes one enumeration of the same
family of clusters. -/
def to_iter {α : Type} (cluster_labels : List Int) (records : List α) :
    List (Int × List α) :=
  (cluster_labels.dedup.filter fun v => v ≠ -1).map fun v =>
    (v, (cluster_labels.zip records).filterMap fun q =>
      if q.1 = v then some q.2 else none)

/-- Python `_block_process` (deduplicator.py, lines 89-106), with the similarity
matrix and DBSCAN abstracted into `clusterer` (the composite
`self.clusterer(..., sim_matrix)` call, which returns one label per block
record): empty blocks produce nothing, blocks with at least two records are
labelled by the clusterer, and a one-record block gets `labels = [0]`. -/
def block_process {α : Type} (clusterer : List α → List Int)
    (group_records : List α) : List (Int × List α) :=
  if group_records.isEmpty then []
  else if 1 < group_records.length then
    to_iter (clusterer group_records) group_records
  else to_iter [0] group_records

/-- Python `DBScanClusterer.__call__` (dbscan_clusterer.py, lines 21-31): subtract the
similarity matrix from `1` entrywise and hand the distance matrix to
`sklearn.cluster.DBSCAN.fit_predict`.  sklearn is external, so `fit_predict`
(carrying the configured `eps`/`min_samples`) is a parameter. -/
def dbscan_call {μ : Type} (fit_predict : List (List ℚ) → List Int)
    (mentions_list : List μ) (similarity_matrix : List (List ℚ)) : List Int :=
  let dist_matrix := similarity_matrix.map fun row => row.map fun x => 1 - x
  fit_predict dist_matrix

/-- The `num_threads is None` default of `Deduplicator.__call__`
(deduplicator.py, line 87): `min(min(os.cpu_count() // 2, 1), len(records))`. -/
def default_num_threads (cores n_records : Nat) : Nat :=
  min (min (cores / 2) 1) n_records

/-! ## Pair-counting lemmas for the confusion matrix -/

theorem comb2_succ (n : Nat) : comb2 (n + 1) = comb2 n + n := by
  show Nat.choose (n + 1) 2 = Nat.choose n 2 + n
  rw [Nat.choose_succ_succ, Nat.choose_one_right, Nat.add_comm]

theorem sumComb2_eq_sum {α : Type} [DecidableEq α] (l : List α) :
    sumComb2 l = ∑ v ∈ l.toFinset, comb2 (l.count v) := by
  have h1 : l.dedup.toFinset = l.toFinset :=
    List.toFinset.ext fun x => List.mem_dedup
  calc sumComb2 l = (l.dedup.map fun v => comb2 (l.count v)).sum := rfl
    _ = l.dedup.toFinset.sum fun v => comb2 (l.count v) :=
        (List.sum_toFinset _ l.nodup_dedup).symm
    _ = ∑ v ∈ l.toFinset, comb2 (l.count v) := by rw [h1]

theorem sumComb2_cons {α : Type} [DecidableEq α] (x : α) (l : List α) :
    sumComb2 (x :: l) = l.count x + sumComb2 l := by
  rw [sumComb2_eq_sum, sumComb2_eq_sum, List.toFinset_cons]
  by_cases hx : x ∈ l.toFinset
  · rw [Finset.insert_eq_self.mpr hx]
    rw [← Finset.sum_erase_add _ _ hx, ← Finset.sum_erase_add l.toFinset _ hx]
    have hs : ∀ v ∈ l.toFinset.erase x,
        comb2 ((x :: l).count v) = comb2 (l.count v) := by
      intro v hv
      have hne : x ≠ v := (Finset.ne_of_mem_erase hv).symm
      simp only [List.count_cons, beq_iff_eq]
      rw [if_neg hne, Nat.add_zero]
    rw [Finset.sum_congr rfl hs, List.count_cons_self, comb2_succ]
    omega
  · rw [Finset.sum_insert hx]
    have hnot : x ∉ l := fun h => hx (List.mem_toFinset.mpr h)
    have hc0 : l.count x = 0 := List.count_eq_zero_of_not_mem hnot
    have hcx : (x :: l).count x = 1 := by rw [List.count_cons_self, hc0]
    have hs : ∀ v ∈ l.toFinset, comb2 ((x :: l).count v) = comb2 (l.count v) := by
      intro v hv
      have hne : x ≠ v := fun h => hx (h ▸ hv)
      simp only [List.count_cons, beq_iff_eq]
      rw [if_neg hne, Nat.add_zero]
    rw [Finset.sum_congr rfl hs, hcx, hc0]
    rfl

theorem sumComb2_eq_numSamePairs {α : Type} [DecidableEq α] (l : List α) :
    sumComb2 l = numSamePairs l := by
  induction l with
  | nil => rfl
  | cons x rest ih => rw [sumComb2_cons, ih]; rfl

/-- Claim C2: `confusion_matrix` computes `TP` as the sum of `C(n,2)` over the
joint `(predicted, true)` cells — equivalently the number of pairs placed
together by both labelings — and `FP = P − TP`, `FN = T − TP`,
`TN = C(N,2) − P − FN` where `P` (resp. `T`) is the number of same-predicted
(resp. same-true) pairs; consequently `TP + FP + FN + TN = C(N,2)`. -/
theorem confusion_matrix_spec (true_labels pred_labels : List Int)
    (h : true_labels.length = pred_labels.length) :
    (confusion_matrix true_labels pred_labels).TP =
      (numSamePairs (pred_labels.zip true_labels) : Int) ∧
    (confusion_matrix true_labels pred_labels).FP =
      (numSamePairs pred_labels : Int) -
        (confusion_matrix true_labels pred_labels).TP ∧
    (confusion_matrix true_labels pred_labels).FN =
      (numSamePairs true_labels : Int) -
        (confusion_matrix true_labels pred_labels).TP ∧
    (confusion_matrix true_labels pred_labels).TN =
      (comb2 true_labels.length : Int) - (numSamePairs pred_labels : Int) -
        (confusion_matrix true_labels pred_labels).FN ∧
    (confusion_matrix true_labels pred_labels).TP +
      (confusion_matrix true_labels pred_labels).FP +
      (confusion_matrix true_labels pred_labels).FN +
      (confusion_matrix true_labels pred_labels).TN =
      (comb2 true_labels.length : Int) := by
  have hz := sumComb2_eq_numSamePairs (pred_labels.zip true_labels)
  have hp := sumComb2_eq_numSamePairs pred_labels
  have ht := sumComb2_eq_numSamePairs true_labels
  refine ⟨?_, ?_, ?_, ?_, ?_⟩ <;>
    simp only [confusion_matrix, hz, hp, ht, h] <;> ring

/-- Claim C2, witness: the spec scenario S6, `true_labels = [0,0,1,2]`,
`pred_labels = [0,0,1,1]`. -/
theorem confusion_matrix_spec_witness :
    (confusion_matrix [0, 0, 1, 2] [0, 0, 1, 1]).TP =
      (numSamePairs ([0, 0, 1, 1].zip [0, 0, 1, 2]) : Int) ∧
    (confusion_matrix [0, 0, 1, 2] [0, 0, 1, 1]).FP =
      (numSamePairs [0, 0, 1, 1] : Int) -
        (confusion_matrix [0, 0, 1, 2] [0, 0, 1, 1]).TP ∧
    (confusion_matrix [0, 0, 1, 2] [0, 0, 1, 1]).FN =
      (numSamePairs [0, 0, 1, 2] : Int) -
        (confusion_matrix [0, 0, 1, 2] [0, 0, 1, 1]).TP ∧
    (confusion_matrix [0, 0, 1, 2] [0, 0, 1, 1]).TN =
      (comb2 ([0, 0, 1, 2] : List Int).length : Int) -
        (numSamePairs [0, 0, 1, 1] : Int) -
        (confusion_matrix [0, 0, 1, 2] [0, 0, 1, 1]).FN ∧
    (confusion_matrix [0, 0, 1, 2] [0, 0, 1, 1]).TP +
      (confusion_matrix [0, 0, 1, 2] [0, 0, 1, 1]).FP +
      (confusion_matrix [0, 0, 1, 2] [0, 0, 1, 1]).FN +
      (confusion_matrix [0, 0, 1, 2] [0, 0, 1, 1]).TN =
      (comb2 ([0, 0, 1, 2] : List Int).length : Int) :=
  confusion_matrix_spec [0, 0, 1, 2] [0, 0, 1, 1] (by decide)

/-- Claim C5: evaluating the splitter at the spec's S5 scenario (block of 10
records, `W = 3`, `S = 1`, `max_block_size` exceeded).  The code emits NINE
sub-blocks — eight full windows plus a trailing short window `[8, 9]` — not
the eight windows of size 3 the claim states; `sliding_window` also
contradicts its own doctest examples (`range(6), 4` is documented to give 3
windows but gives 4; `range(3), 4` is documented to give `[]` but gives one
short window). -/
theorem snb_split_ten_records :
    (snb_split 5 3 1 id 0 (List.range 10)).map Prod.snd =
      [[0, 1, 2], [1, 2, 3], [2, 3, 4], [3, 4, 5], [4, 5, 6], [5, 6, 7],
       [6, 7, 8], [7, 8, 9], [8, 9]] ∧
    (snb_split 5 3 1 id 0 (List.range 10)).length = 9 ∧
    sliding_window (List.range 6) 4 1 =
      [[0, 1, 2, 3], [1, 2, 3, 4], [2, 3, 4, 5], [3, 4, 5]] ∧
    sliding_window (List.range 3) 4 1 = [[0, 1, 2]] := by decide

/-- Claim C8, counterexample: `reduction_ratio` is NOT in `[0, 100]` for all
operation counts — when blocking increases work (`after > before`) it is
negative: at `before = 1`, `after = 2` it is `−100`. -/
theorem reduction_ratio_negative :
    reduction_ratio (some 1) (some 2) = -100 ∧
    ¬ 0 ≤ reduction_ratio (some 1) (some 2) := by
  constructor <;> norm_num [reduction_ratio]

/-- Claim C8, amended: `reduction_ratio` equals `(1 − after/before)·100` when
`before ≠ 0` and is `0` when `before = 0` or either count is missing; it lies
in `[0, 100]` whenever blocking does not increase work (`after ≤ before`).
`comparison_efficiency` equals `before/after`, is `⊤` (`math.inf`) when
`after = 0`, `1` when either count is missing, and is `≥ 1` whenever
`after ≤ before`. -/
theorem blocking_efficiency_spec :
    (∀ b a : Nat, a ≤ b →
      0 ≤ reduction_ratio (some b) (some a) ∧
      reduction_ratio (some b) (some a) ≤ 100 ∧
      1 ≤ comparison_efficiency (some b) (some a)) ∧
    (∀ b a : Nat, b ≠ 0 →
      reduction_ratio (some b) (some a) = (1 - (a : ℚ) / (b : ℚ)) * 100) ∧
    (∀ a, reduction_ratio none a = 0) ∧
    (∀ b, reduction_ratio b none = 0) ∧
    (∀ a, reduction_ratio (some 0) (some a) = 0) ∧
    (∀ b a : Nat, a ≠ 0 →
      comparison_efficiency (some b) (some a) =
        (((b : ℚ) / (a : ℚ) : ℚ) : WithTop ℚ)) ∧
    (∀ a, comparison_efficiency none a = 1) ∧
    (∀ b, comparison_efficiency b none = 1) ∧
    (∀ b, comparison_efficiency (some b) (some 0) = ⊤) := by
  refine ⟨?_, ?_, ?_, ?_, ?_, ?_, ?_, ?_, ?_⟩
  · intro b a hab
    by_cases hb : b = 0
    · subst hb
      have ha : a = 0 := Nat.le_zero.mp hab
      subst ha
      refine ⟨le_refl _, by norm_num [reduction_ratio], ?_⟩
      show (1 : WithTop ℚ) ≤ comparison_efficiency (some 0) (some 0)
      simp only [comparison_efficiency]
      exact le_top
    · have hb' : (0 : ℚ) < (b : ℚ) := by
        exact_mod_cast Nat.pos_of_ne_zero hb
      have hdiv0 : (0 : ℚ) ≤ (a : ℚ) / (b : ℚ) := by positivity
      have hdiv1 : (a : ℚ) / (b : ℚ) ≤ 1 :=
        (div_le_one hb').mpr (by exact_mod_cast hab)
      refine ⟨?_, ?_, ?_⟩
      · simp only [reduction_ratio, if_neg hb]
        nlinarith
      · simp only [reduction_ratio, if_neg hb]
        nlinarith
      · by_cases ha : a = 0
        · subst ha
          simp only [comparison_efficiency, if_pos rfl]
          exact le_top
        · have ha' : (0 : ℚ) < (a : ℚ) := by
            exact_mod_cast Nat.pos_of_ne_zero ha
          simp only [comparison_efficiency, if_neg ha]
          have h1 : (1 : ℚ) ≤ (b : ℚ) / (a : ℚ) :=
            (one_le_div ha').mpr (by exact_mod_cast hab)
          exact_mod_cast WithTop.coe_le_coe.mpr h1
  · intro b a hb
    simp [reduction_ratio, hb]
  · intro a; cases a <;> rfl
  · intro b; cases b <;> rfl
  · intro a; rfl
  · intro b a ha
    simp [comparison_efficiency, ha]
  · intro a; cases a <;> rfl
  · intro b; cases b <;> rfl
  · intro b; rfl

/-- Claim C8, witness: the amended claim at `before = 10`, `after = 5` and at
the missing/zero inputs. -/
theorem blocking_efficiency_spec_witness :
    (0 ≤ reduction_ratio (some 10) (some 5) ∧
      reduction_ratio (some 10) (some 5) ≤ 100 ∧
      1 ≤ comparison_efficiency (some 10) (some 5)) ∧
    reduction_ratio none (some 5) = 0 ∧
    comparison_efficiency (some 10) (some 0) = ⊤ :=
  ⟨blocking_efficiency_spec.1 10 5 (by decide),
   blocking_efficiency_spec.2.2.1 (some 5),
   blocking_efficiency_spec.2.2.2.2.2.2.2.2 10⟩

/-- Claim C9: the `num_threads is None` default is
`min(min(cores // 2, 1), len(records))`, which is pinned to at most `1`
thread — at `cores = 8`, `N = 10` it is `1` where the spec formula
`max(1, min(cores // 2, N))` gives `4` — and at `cores = 1` it is `0`,
which makes `ThreadPoolExecutor(max_workers=0)` raise `ValueError`.  The
spec's "Open questions" section itself flags this line as a bug, so the
claim reflects the intent and the code is the slip. -/
theorem default_num_threads_bug :
    default_num_threads 8 10 = 1 ∧
    max 1 (min (8 / 2) 10) = 4 ∧
    default_num_threads 1 5 = 0 := by decide

/-- Claim C10: `DBScanClusterer.__call__` never reads `mentions_list`; its
output depends only on the similarity matrix (and on the `fit_predict`
closure carrying `eps`/`min_samples`), so the `_block_process` call site that
passes the full record list instead of the block's records is harmless. -/
theorem dbscan_call_ignores_mentions {μ₁ μ₂ : Type}
    (fit_predict : List (List ℚ) → List Int) (m₁ : List μ₁) (m₂ : List μ₂)
    (similarity_matrix : List (List ℚ)) :
    dbscan_call fit_predict m₁ similarity_matrix =
      dbscan_call fit_predict m₂ similarity_matrix := rfl

/-! ## Output assembly (`to_iter` / `_block_process`) -/

theorem zip_filterMap_ne_nil {α : Type} (v : Int) :
    ∀ (labels : List Int) (records : List α),
      labels.length = records.length → v ∈ labels →
      (labels.zip records).filterMap
        (fun q => if q.1 = v then some q.2 else none) ≠ [] := by
  intro labels
  induction labels with
  | nil => intro records _ hv; exact absurd hv (List.not_mem_nil v)
  | cons l ls ih =>
    intro records hlen hv
    cases records with
    | nil => exact absurd hlen (by simp)
    | cons r rs =>
      by_cases hl : l = v
      · simp [List.zip_cons_cons, List.filterMap_cons, hl]
      · have hv' : v ∈ ls := by
          rcases List.mem_cons.mp hv with h | h
          · exact absurd h.symm hl
          · exact h
        have hlen' : ls.length = rs.length := by simpa using hlen
        simpa [List.zip_cons_cons, List.filterMap_cons, hl] using ih rs hlen' hv'

/-- Claim C4, counterexample: a block containing exactly one record DOES
contribute an output cluster — `_block_process` labels it `[0]` (not `-1`),
so `to_iter` emits one cluster with a single member, contradicting both
"every emitted cluster has at least 2 member records" and "a block containing
exactly one record contributes no output cluster". -/
theorem block_process_singleton_block :
    block_process (fun _ => []) [(0 : Nat)] = [(0, [0])] ∧
    ¬ (∀ c ∈ block_process (fun _ => []) [(0 : Nat)], 2 ≤ c.2.length) := by
  decide

/-- Claim C4, amended: `to_iter` omits exactly the records labelled `-1`:
every emitted cluster carries a label `≠ -1` and a nonempty member list; but
a block with exactly one record contributes one singleton output cluster
(label `0`) rather than none. -/
theorem to_iter_omits_noise {α : Type} (cluster_labels : List Int)
    (records : List α) (clusterer : List α → List Int) (r : α)
    (h : cluster_labels.length = records.length) :
    (∀ c ∈ to_iter cluster_labels records, c.1 ≠ -1 ∧ c.2 ≠ []) ∧
    block_process clusterer [r] = [(0, [r])] := by
  constructor
  · intro c hc
    obtain ⟨v, hv, rfl⟩ := List.mem_map.mp hc
    have hv' := List.mem_filter.mp hv
    have hvne : v ≠ -1 := by simpa using hv'.2
    refine ⟨hvne, ?_⟩
    exact zip_filterMap_ne_nil v cluster_labels records h
      (List.mem_dedup.mp hv'.1)
  · rfl

/-- Claim C4, witness: labels `[0, 0, -1]` over three records — the noise
record `2` is omitted — and a one-record block. -/
theorem to_iter_omits_noise_witness :
    (∀ c ∈ to_iter [0, 0, -1] [10, 20, 30], c.1 ≠ -1 ∧ c.2 ≠ []) ∧
    block_process (fun _ => []) [(7 : Nat)] = [(0, [7])] :=
  to_iter_omits_noise [0, 0, -1] [10, 20, 30] (fun _ => []) 7 (by decide)

/-! ## `clusters_to_labels`: duplicate membership -/

theorem assignCluster_none_iff :
    ∀ (c : List Nat) (labels : Nat → Int) (idx : Nat), c.Nodup →
      (assignCluster labels idx c = none ↔ ∃ x ∈ c, 0 ≤ labels x) := by
  intro c
  induction c with
  | nil => intro labels idx _; simp [assignCluster]
  | cons node rest ih =>
    intro labels idx hnd
    have hnd' := List.nodup_cons.mp hnd
    by_cases h0 : 0 ≤ labels node
    · simp [assignCluster, h0]
    · rw [assignCluster, if_neg h0, ih _ idx hnd'.2]
      constructor
      · rintro ⟨x, hx, hx0⟩
        refine ⟨x, List.mem_cons_of_mem _ hx, ?_⟩
        have hxn : x ≠ node := fun he => hnd'.1 (he ▸ hx)
        rwa [Function.update_noteq hxn] at hx0
      · rintro ⟨x, hx, hx0⟩
        rcases List.mem_cons.mp hx with he | hm
        · exact absurd (he ▸ hx0) h0
        · have hxn : x ≠ node := fun he => hnd'.1 (he ▸ hm)
          exact ⟨x, hm, by rwa [Function.update_noteq hxn]⟩

theorem assignCluster_some_eq :
    ∀ (c : List Nat) (labels : Nat → Int) (idx : Nat) (l : Nat → Int),
      c.Nodup → assignCluster labels idx c = some l →
      ∀ y, l y = if y ∈ c then (idx : Int) else labels y := by
  intro c
  induction c with
  | nil =>
    intro labels idx l _ h y
    simp only [assignCluster, Option.some.injEq] at h
    simp [← h]
  | cons node rest ih =>
    intro labels idx l hnd h y
    have hnd' := List.nodup_cons.mp hnd
    rw [assignCluster] at h
    by_cases h0 : 0 ≤ labels node
    · rw [if_pos h0] at h; exact absurd h (by simp)
    · rw [if_neg h0] at h
      have := ih _ idx l hnd'.2 h y
      rw [this]
      by_cases hy : y ∈ rest
      · rw [if_pos hy, if_pos (List.mem_cons_of_mem _ hy)]
      · rw [if_neg hy]
        by_cases hyn : y = node
        · subst hyn
          rw [Function.update_same, if_pos (List.mem_cons_self _ _)]
        · rw [Function.update_noteq hyn, if_neg]
          intro hmem
          rcases List.mem_cons.mp hmem with he | hm
          · exact hyn he
          · exact hy hm

/-- Two lists are disjoint in one direction iff in the other. -/
theorem notMem_comm {α : Type} (c d : List α) :
    (∀ x ∈ c, x ∉ d) ↔ (∀ x ∈ d, x ∉ c) :=
  ⟨fun h x hxd hxc => h x hxc hxd, fun h x hxc hxd => h x hxd hxc⟩

theorem assignAll_none_iff :
    ∀ (cs : List (List Nat)) (idx : Nat) (labels : Nat → Int),
      (∀ c ∈ cs, c.Nodup) →
      (assignAll cs idx labels = none ↔
        ¬ ((cs.Pairwise fun c d => ∀ x ∈ c, x ∉ d) ∧
            ∀ c ∈ cs, ∀ x ∈ c, labels x < 0)) := by
  intro cs
  induction cs with
  | nil => intro idx labels _; simp [assignAll]
  | cons c cs ih =>
    intro idx labels hnd
    have hcnd : c.Nodup := hnd c (List.mem_cons_self _ _)
    have hnd' : ∀ d ∈ cs, d.Nodup := fun d hd => hnd d (List.mem_cons_of_mem _ hd)
    rw [assignAll]
    cases hac : assignCluster labels idx c with
    | none =>
      obtain ⟨x, hxc, hx0⟩ := (assignCluster_none_iff c labels idx hcnd).mp hac
      simp only [true_iff]
      rintro ⟨-, hall⟩
      exact absurd (hall c (List.mem_cons_self _ _) x hxc) (not_lt.mpr hx0)
    | some l =>
      have hlc : ∀ x ∈ c, labels x < 0 := by
        intro x hx
        by_contra hge
        exact Option.noConfusion
          (hac ▸ (assignCluster_none_iff c labels idx hcnd).mpr
            ⟨x, hx, not_lt.mp hge⟩)
      have hleq := assignCluster_some_eq c labels idx l hcnd hac
      rw [ih (idx + 1) l hnd']
      have hidx0 : ¬ ((idx : Int) < 0) := by omega
      constructor
      · intro hno hyes
        apply hno
        obtain ⟨hpw, hall⟩ := hyes
        have hpw' := List.pairwise_cons.mp hpw
        refine ⟨hpw'.2, ?_⟩
        intro d hd x hx
        rw [hleq x]
        have hxc : x ∉ c := (notMem_comm c d).mp (hpw'.1 d hd) x hx
        rw [if_neg hxc]
        exact hall d (List.mem_cons_of_mem _ hd) x hx
      · intro hno hyes
        apply hno
        obtain ⟨hpw, hall⟩ := hyes
        have hdisj : ∀ d ∈ cs, ∀ x ∈ c, x ∉ d := by
          intro d hd x hxc hxd
          have := hall d hd x hxd
          rw [hleq x, if_pos hxc] at this
          exact hidx0 this
        refine ⟨List.pairwise_cons.mpr ⟨hdisj, hpw⟩, ?_⟩
        intro d hd x hx
        rcases List.mem_cons.mp hd with he | hm
        · exact hlc x (he ▸ hx)
        · have := hall d hm x hx
          rw [hleq x] at this
          by_cases hxc : x ∈ c
          · exact absurd (by rwa [if_pos hxc] at this) hidx0
          · rwa [if_neg hxc] at this

/-- Claim C7: `clusters_to_labels` raises the duplicate-membership error iff
some mention id occurs in more than one input cluster (iff the cluster lists
are not pairwise disjoint); on duplicate-free input it returns a label vector
of length `total_mentions`.  Hypotheses scope the claim to well-formed
inputs: dict keys are unique within a cluster and mention ids are in range
(out-of-range ids would raise `IndexError`, not the duplicate error). -/
theorem clusters_to_labels_duplicate (clusters : List (List Nat))
    (total_mentions : Nat) (drop_singletons : Bool)
    (hnodup : ∀ c ∈ clusters, c.Nodup)
    (hrange : ∀ c ∈ clusters, ∀ x ∈ c, x < total_mentions) :
    (clusters_to_labels clusters total_mentions drop_singletons = none ↔
      ¬ clusters.Pairwise fun c d => ∀ x ∈ c, x ∉ d) ∧
    (∀ l, clusters_to_labels clusters total_mentions drop_singletons = some l →
      l.length = total_mentions) := by
  have hiff0 := assignAll_none_iff clusters 0 (fun _ => -1) hnodup
  have hiff : assignAll clusters 0 (fun _ => -1) = none ↔
      ¬ clusters.Pairwise fun c d => ∀ x ∈ c, x ∉ d := by
    rw [hiff0]
    constructor
    · intro h hp
      exact h ⟨hp, fun _ _ _ _ => by norm_num⟩
    · rintro h ⟨hp, -⟩
      exact h hp
  constructor
  · rw [clusters_to_labels]
    cases hassign : assignAll clusters 0 (fun _ => -1) with
    | none =>
      simp only [true_iff]
      exact (hiff.mp hassign)
    | some labels =>
      have hp : clusters.Pairwise fun c d => ∀ x ∈ c, x ∉ d := by
        by_contra hnp
        have hcontra := hiff.mpr hnp
        rw [hassign] at hcontra
        exact Option.noConfusion hcontra
      exact ⟨fun h => absurd h (by simp), fun h => absurd hp h⟩
  · intro l hl
    rw [clusters_to_labels] at hl
    cases hassign : assignAll clusters 0 (fun _ => -1) with
    | none => rw [hassign] at hl; exact Option.noConfusion hl
    | some labels =>
      rw [hassign] at hl
      simp only [Option.some.injEq] at hl
      rw [← hl, List.length_map, List.length_range]

/-- Claim C7, witness: disjoint clusters `[[0,1],[2,3]]` over 5 mentions
succeed with a vector of length 5; the overlap in `[[0,1],[1,2]]` is
reported. -/
theorem clusters_to_labels_duplicate_witness :
    ((clusters_to_labels [[0, 1], [2, 3]] 5 false = none ↔
      ¬ ([[0, 1], [2, 3]] : List (List Nat)).Pairwise fun c d =>
        ∀ x ∈ c, x ∉ d) ∧
    (∀ l, clusters_to_labels [[0, 1], [2, 3]] 5 false = some l →
      l.length = 5)) ∧
    clusters_to_labels [[0, 1], [1, 2]] 3 false = none :=
  ⟨clusters_to_labels_duplicate [[0, 1], [2, 3]] 5 false (by decide) (by decide),
   (clusters_to_labels_duplicate [[0, 1], [1, 2]] 3 false (by decide)
      (by decide)).1.mpr (by decide)⟩

/-! ## Characterisation of `labels_to_pairs` -/

theorem getD_of_drop_eq_cons :
    ∀ (n : Nat) (L rest : List Int) (l : Int),
      L.drop n = l :: rest → L.getD n 0 = l := by
  intro n
  induction n with
  | zero => intro L rest l h; rw [List.drop_zero] at h; rw [h]; rfl
  | succ m ih =>
    intro L rest l h
    cases L with
    | nil => exact absurd h (by simp)
    | cons x L2 => exact ih L2 rest l h

theorem drop_succ_of_drop_eq_cons :
    ∀ (n : Nat) (L rest : List Int) (l : Int),
      L.drop n = l :: rest → L.drop (n + 1) = rest := by
  intro n
  induction n with
  | zero =>
    intro L rest l h
    rw [List.drop_zero] at h
    rw [h]
    rfl
  | succ m ih =>
    intro L rest l h
    cases L with
    | nil => exact absurd h (by simp)
    | cons x L2 => exact ih L2 rest l h

theorem lt_length_of_drop_eq_cons {n : Nat} {L rest : List Int} {l : Int}
    (h : L.drop n = l :: rest) : n < L.length := by
  by_contra hle
  push_neg at hle
  rw [List.drop_eq_nil_of_le hle] at h
  exact List.noConfusion h

/-- The invariant characterisation of the `labels_to_pairs` loop: starting at
position `node` with `clusters_dict` holding, for each label, the earlier
positions carrying it, the emitted pairs are exactly the `(i, j)` with
`node ≤ i < |L|`, `j < i` and equal labels at `i` and `j`. -/
theorem ltpAux_mem (L : List Int) :
    ∀ (rest : List Int) (node : Nat) (d : Int → List Nat),
      rest = L.drop node →
      (∀ v, d v = (List.range node).filter fun j => L.getD j 0 = v) →
      ∀ i j : Nat, ((i, j) ∈ ltpAux rest node d ↔
        (node ≤ i ∧ i < L.length ∧ j < i ∧ L.getD i 0 = L.getD j 0)) := by
  intro rest
  induction rest with
  | nil =>
    intro node d hrest hd i j
    have hlen : L.length ≤ node := by
      by_contra hlt
      push_neg at hlt
      have h0 : (L.drop node).length = 0 := by rw [← hrest]; rfl
      rw [List.length_drop] at h0
      omega
    simp only [ltpAux, List.not_mem_nil, false_iff]
    intro hcon
    omega
  | cons l rest2 ih =>
    intro node d hrest hd i j
    have hgetD : L.getD node 0 = l := getD_of_drop_eq_cons node L rest2 l hrest.symm
    have hdropS : L.drop (node + 1) = rest2 :=
      drop_succ_of_drop_eq_cons node L rest2 l hrest.symm
    have hnode : node < L.length := lt_length_of_drop_eq_cons hrest.symm
    have hd' : ∀ v, (fun v => if v = l then d v ++ [node] else d v) v =
        (List.range (node + 1)).filter fun j => L.getD j 0 = v := by
      intro v
      show (if v = l then d v ++ [node] else d v) = _
      rw [List.range_succ, List.filter_append, hd v]
      by_cases hv : v = l
      · subst hv
        rw [if_pos rfl, List.filter_cons, List.filter_nil]
        have hget2 : L[node]?.getD 0 = v := by
          rw [← List.getD_eq_getElem?_getD]
          exact hgetD
        simp [hget2]
      · rw [if_neg hv, List.filter_cons, List.filter_nil]
        have hget2 : L[node]?.getD 0 = l := by
          rw [← List.getD_eq_getElem?_getD]
          exact hgetD
        simp [hget2, Ne.symm hv]
    rw [ltpAux, List.mem_append, List.mem_map,
      ih (node + 1) _ hdropS.symm hd' i j]
    constructor
    · rintro (⟨j', hj', heq⟩ | hrec)
      · have hi : node = i := congrArg Prod.fst heq
        have hj : j' = j := congrArg Prod.snd heq
        subst hi
        subst hj
        rw [hd l] at hj'
        have hj2 := List.mem_filter.mp hj'
        have hjlt : j' < node := List.mem_range.mp hj2.1
        have hjl : L.getD j' 0 = l := by simpa using hj2.2
        exact ⟨le_refl _, hnode, hjlt, by rw [hgetD, hjl]⟩
      · exact ⟨by omega, hrec.2.1, hrec.2.2.1, hrec.2.2.2⟩
    · rintro ⟨hni, hiL, hji, hlab⟩
      by_cases hin : i = node
      · subst hin
        left
        refine ⟨j, ?_, rfl⟩
        rw [hd l]
        refine List.mem_filter.mpr ⟨List.mem_range.mpr hji, ?_⟩
        simp only [decide_eq_true_eq]
        rw [← hgetD, hlab]
      · right
        exact ⟨by omega, hiL, hji, hlab⟩

theorem labels_to_pairs_mem (L : List Int) (i j : Nat) :
    (i, j) ∈ labels_to_pairs L ↔
      (j < i ∧ i < L.length ∧ L.getD i 0 = L.getD j 0) := by
  rw [labels_to_pairs,
    ltpAux_mem L L 0 (fun _ => []) (List.drop_zero L).symm
      (fun v => by simp) i j]
  constructor
  · rintro ⟨-, h1, h2, h3⟩
    exact ⟨h2, h1, h3⟩
  · rintro ⟨h2, h1, h3⟩
    exact ⟨Nat.zero_le i, h1, h2, h3⟩

theorem ltpAux_nodup (L : List Int) :
    ∀ (rest : List Int) (node : Nat) (d : Int → List Nat),
      rest = L.drop node →
      (∀ v, d v = (List.range node).filter fun j => L.getD j 0 = v) →
      (ltpAux rest node d).Nodup := by
  intro rest
  induction rest with
  | nil => intro node d _ _; exact List.nodup_nil
  | cons l rest2 ih =>
    intro node d hrest hd
    have hgetD : L.getD node 0 = l := getD_of_drop_eq_cons node L rest2 l hrest.symm
    have hdropS : L.drop (node + 1) = rest2 :=
      drop_succ_of_drop_eq_cons node L rest2 l hrest.symm
    have hd' : ∀ v, (fun v => if v = l then d v ++ [node] else d v) v =
        (List.range (node + 1)).filter fun j => L.getD j 0 = v := by
      intro v
      show (if v = l then d v ++ [node] else d v) = _
      rw [List.range_succ, List.filter_append, hd v]
      by_cases hv : v = l
      · subst hv
        rw [if_pos rfl, List.filter_cons, List.filter_nil]
        have hget2 : L[node]?.getD 0 = v := by
          rw [← List.getD_eq_getElem?_getD]
          exact hgetD
        simp [hget2]
      · rw [if_neg hv, List.filter_cons, List.filter_nil]
        have hget2 : L[node]?.getD 0 = l := by
          rw [← List.getD_eq_getElem?_getD]
          exact hgetD
        simp [hget2, Ne.symm hv]
    rw [ltpAux]
    apply List.Nodup.append
    · apply List.Nodup.map
      · intro a b hab
        exact congrArg Prod.snd hab
      · rw [hd l]
        exact (List.nodup_range node).filter _
    · exact ih (node + 1) _ hdropS.symm hd'
    · intro p hp1 hp2
      obtain ⟨j', _, heq⟩ := List.mem_map.mp hp1
      have hp2' := (ltpAux_mem L rest2 (node + 1) _ hdropS.symm hd'
        p.1 p.2).mp hp2
      have hfst : p.1 = node := by rw [← heq]
      obtain ⟨h1, -, -, -⟩ := hp2'
      omega

theorem labels_to_pairs_nodup (L : List Int) : (labels_to_pairs L).Nodup :=
  ltpAux_nodup L L 0 (fun _ => []) (List.drop_zero L).symm (fun v => by simp)

/-- Claim C6, counterexample: the pairs returned by `labels_to_pairs` are NOT
`(min, max)`-canonical: for labels `[0, 0]` the function returns `[(1, 0)]`,
whose first component is the larger mention id (the loop emits
`(node, linked_node)` with `linked_node` seen earlier). -/
theorem labels_to_pairs_not_min_max :
    labels_to_pairs [0, 0] = [(1, 0)] ∧
    ¬ (∀ p ∈ labels_to_pairs [0, 0], p.1 < p.2) := by decide

/-- Claim C6, amended: for every label vector without `-1`,
`labels_to_pairs` returns exactly one pair for each unordered pair of
distinct indices sharing a label — membership is characterised by
`j < i < |L|` with equal labels and the output list is duplicate-free — and
every returned pair is canonical as `(max, min)`: its FIRST component is the
larger mention id. -/
theorem labels_to_pairs_spec (L : List Int) (h : (-1 : Int) ∉ L) :
    (∀ i j : Nat, (i, j) ∈ labels_to_pairs L ↔
      (j < i ∧ i < L.length ∧ L.getD i 0 = L.getD j 0)) ∧
    (labels_to_pairs L).Nodup :=
  ⟨fun i j => labels_to_pairs_mem L i j, labels_to_pairs_nodup L⟩

/-- Claim C6, witness: the docstring example `[0, 0, 1, 0]`. -/
theorem labels_to_pairs_spec_witness :
    ((3, 1) ∈ labels_to_pairs [0, 0, 1, 0] ↔
      (1 < 3 ∧ 3 < ([0, 0, 1, 0] : List Int).length ∧
        ([0, 0, 1, 0] : List Int).getD 3 0 = ([0, 0, 1, 0] : List Int).getD 1 0)) ∧
    (labels_to_pairs [0, 0, 1, 0]).Nodup :=
  ⟨(labels_to_pairs_spec [0, 0, 1, 0] (by decide)).1 3 1,
   (labels_to_pairs_spec [0, 0, 1, 0] (by decide)).2⟩

/-! ## OR composition: path graphs vs clique graphs vs the join -/

theorem mem_iter_pairwise_combos2 {α : Type} :
    ∀ (xs : List α) (p : α × α), p ∈ iter_pairwise xs → p ∈ combos2 xs := by
  intro xs
  induction xs with
  | nil => intro p hp; exact absurd hp (List.not_mem_nil p)
  | cons x rest ih =>
    intro p hp
    cases rest with
    | nil => exact absurd hp (List.not_mem_nil p)
    | cons y rest2 =>
      rw [show iter_pairwise (x :: y :: rest2) =
        (x, y) :: iter_pairwise (y :: rest2) from rfl] at hp
      rw [combos2, List.mem_append]
      rcases List.mem_cons.mp hp with he | hm
      · exact Or.inl (he ▸ List.mem_map.mpr
          ⟨y, List.mem_cons_self _ _, rfl⟩)
      · exact Or.inr (ih p hm)

theorem combos2_mem {α : Type} :
    ∀ (xs : List α) (p : α × α), p ∈ combos2 xs → p.1 ∈ xs ∧ p.2 ∈ xs := by
  intro xs
  induction xs with
  | nil => intro p hp; exact absurd hp (List.not_mem_nil p)
  | cons x rest ih =>
    intro p hp
    rw [combos2, List.mem_append] at hp
    rcases hp with hmap | hrec
    · obtain ⟨y, hy, heq⟩ := List.mem_map.mp hmap
      rw [← heq]
      exact ⟨List.mem_cons_self _ _, List.mem_cons_of_mem _ hy⟩
    · have := ih p hrec
      exact ⟨List.mem_cons_of_mem _ this.1, List.mem_cons_of_mem _ this.2⟩

theorem combos2_total {α : Type} :
    ∀ (xs : List α) (x y : α), x ∈ xs → y ∈ xs → x ≠ y →
      (x, y) ∈ combos2 xs ∨ (y, x) ∈ combos2 xs := by
  intro xs
  induction xs with
  | nil => intro x y hx _ _; exact absurd hx (List.not_mem_nil x)
  | cons h rest ih =>
    intro x y hx hy hne
    rcases List.mem_cons.mp hx with hxh | hxr
    · subst hxh
      have hyr : y ∈ rest := by
        rcases List.mem_cons.mp hy with hyh | hyr
        · exact absurd hyh.symm hne
        · exact hyr
      exact Or.inl (by
        rw [combos2, List.mem_append]
        exact Or.inl (List.mem_map.mpr ⟨y, hyr, rfl⟩))
    · rcases List.mem_cons.mp hy with hyh | hyr
      · subst hyh
        exact Or.inr (by
          rw [combos2, List.mem_append]
          exact Or.inl (List.mem_map.mpr ⟨x, hxr, rfl⟩))
      · rcases ih x y hxr hyr hne with hc | hc
        · exact Or.inl (by
            rw [combos2, List.mem_append]; exact Or.inr hc)
        · exact Or.inr (by
            rw [combos2, List.mem_append]; exact Or.inr hc)

theorem rtg_lift {α : Type} {r s : α → α → Prop}
    (h : ∀ x y, r x y → Relation.ReflTransGen s x y) :
    ∀ a b, Relation.ReflTransGen r a b → Relation.ReflTransGen s a b := by
  intro a b hab
  induction hab with
  | refl => exact Relation.ReflTransGen.refl
  | tail _ hyz ih => exact Relation.ReflTransGen.trans ih (h _ _ hyz)

theorem sameComponent_symm {E : List (Nat × Nat)} {a b : Nat}
    (h : sameComponent E a b) : sameComponent E b a :=
  Relation.ReflTransGen.symmetric (fun _ _ hxy => hxy.elim Or.inr Or.inl) h

theorem sameComponent_mono {E F : List (Nat × Nat)} (hEF : ∀ p ∈ E, p ∈ F)
    {a b : Nat} (h : sameComponent E a b) : sameComponent F a b := by
  refine rtg_lift ?_ a b h
  rintro x y (hxy | hyx)
  · exact Relation.ReflTransGen.single (Or.inl (hEF _ hxy))
  · exact Relation.ReflTransGen.single (Or.inr (hEF _ hyx))

theorem iter_pairwise_subset_cons {α : Type} (h : α) (t : List α) :
    ∀ p ∈ iter_pairwise t, p ∈ iter_pairwise (h :: t) := by
  intro p hp
  cases t with
  | nil => exact absurd hp (List.not_mem_nil p)
  | cons y t2 =>
    rw [show iter_pairwise (h :: y :: t2) =
      (h, y) :: iter_pairwise (y :: t2) from rfl]
    exact List.mem_cons_of_mem _ hp

/-- All members of a list are connected through its consecutive pairs. -/
theorem chain_conn :
    ∀ (xs : List Nat) (x y : Nat), x ∈ xs → y ∈ xs →
      sameComponent (iter_pairwise xs) x y := by
  intro xs
  induction xs with
  | nil => intro x y hx _; exact absurd hx (List.not_mem_nil x)
  | cons h t ih =>
    have hlift : ∀ u w, sameComponent (iter_pairwise t) u w →
        sameComponent (iter_pairwise (h :: t)) u w :=
      fun u w => sameComponent_mono (iter_pairwise_subset_cons h t)
    have hhead : ∀ y ∈ t, sameComponent (iter_pairwise (h :: t)) h y := by
      intro y hy
      cases t with
      | nil => exact absurd hy (List.not_mem_nil y)
      | cons y0 t2 =>
        have hstep : sameComponent (iter_pairwise (h :: y0 :: t2)) h y0 :=
          Relation.ReflTransGen.single (Or.inl (by
            rw [show iter_pairwise (h :: y0 :: t2) =
              (h, y0) :: iter_pairwise (y0 :: t2) from rfl]
            exact List.mem_cons_self _ _))
        exact Relation.ReflTransGen.trans hstep
          (hlift y0 y (ih y0 y (List.mem_cons_self _ _) hy))
    intro x y hx hy
    rcases List.mem_cons.mp hx with hxh | hxt
    · subst hxh
      rcases List.mem_cons.mp hy with hyh | hyt
      · subst hyh
        exact Relation.ReflTransGen.refl
      · exact hhead y hyt
    · rcases List.mem_cons.mp hy with hyh | hyt
      · subst hyh
        exact sameComponent_symm (hhead x hxt)
      · exact hlift x y (ih x y hxt hyt)

theorem mem_groupMembers {β : Type} [DecidableEq β] {L : Nat → β} {n : Nat}
    {v : β} {x : Nat} : x ∈ groupMembers L n v ↔ (x < n ∧ L x = v) := by
  simp [groupMembers, List.mem_filter, List.mem_range]

theorem pathEdges_subset_cliqueEdges {β : Type} [DecidableEq β] (L : Nat → β)
    (n : Nat) : ∀ p ∈ pathEdges L n, p ∈ cliqueEdges L n := by
  intro p hp
  obtain ⟨v, hv, hpe⟩ := List.mem_flatMap.mp hp
  exact List.mem_flatMap.mpr ⟨v, hv, mem_iter_pairwise_combos2 _ p hpe⟩

theorem cliqueEdges_elim {β : Type} [DecidableEq β] {L : Nat → β} {n x y : Nat}
    (h : (x, y) ∈ cliqueEdges L n) : x < n ∧ y < n ∧ L x = L y := by
  obtain ⟨v, _, hc⟩ := List.mem_flatMap.mp h
  have hm := combos2_mem _ _ hc
  have hx := mem_groupMembers.mp hm.1
  have hy := mem_groupMembers.mp hm.2
  exact ⟨hx.1, hy.1, by rw [hx.2, hy.2]⟩

theorem cliqueEdges_intro {β : Type} [DecidableEq β] {L : Nat → β} {n x y : Nat}
    (hx : x < n) (hy : y < n) (hxy : L x = L y) (hne : x ≠ y) :
    (x, y) ∈ cliqueEdges L n ∨ (y, x) ∈ cliqueEdges L n := by
  have hvd : L x ∈ ((List.range n).map L).dedup :=
    List.mem_dedup.mpr (List.mem_map.mpr ⟨x, List.mem_range.mpr hx, rfl⟩)
  have hxm : x ∈ groupMembers L n (L x) := mem_groupMembers.mpr ⟨hx, rfl⟩
  have hym : y ∈ groupMembers L n (L x) := mem_groupMembers.mpr ⟨hy, hxy.symm⟩
  rcases combos2_total _ x y hxm hym hne with hc | hc
  · exact Or.inl (List.mem_flatMap.mpr ⟨L x, hvd, hc⟩)
  · exact Or.inr (List.mem_flatMap.mpr ⟨L x, hvd, hc⟩)

/-- Claim C3: for every list of child rules (each entering `GroupByLogicalOR.fit`
only through its label vector) and every dataset size, the `level="groups"`
computation (union of the children's path graphs, then connected components)
and the `level="graph"` computation (union of the children's clique graphs,
then connected components) induce the same equivalence on records, namely the
join of the children's "same label" equivalence relations. -/
theorem or_level_equivalence {β : Type} [DecidableEq β]
    (rules : List (Nat → β)) (n a b : Nat) :
    (sameComponent (orGroupsEdges rules n) a b ↔
      sameComponent (orGraphEdges rules n) a b) ∧
    (sameComponent (orGraphEdges rules n) a b ↔ joinOfRules rules n a b) := by
  have hpath_clique : ∀ x y, sameComponent (orGroupsEdges rules n) x y →
      sameComponent (orGraphEdges rules n) x y := by
    intro x y
    apply sameComponent_mono
    intro p hp
    obtain ⟨L, hL, hpe⟩ := List.mem_flatMap.mp hp
    exact List.mem_flatMap.mpr ⟨L, hL, pathEdges_subset_cliqueEdges L n p hpe⟩
  have hedge_path : ∀ u w, (u, w) ∈ orGraphEdges rules n →
      sameComponent (orGroupsEdges rules n) u w := by
    intro u w huw
    obtain ⟨L, hL, hce⟩ := List.mem_flatMap.mp huw
    obtain ⟨v, hv, hc⟩ := List.mem_flatMap.mp hce
    have hm := combos2_mem _ _ hc
    have hconn := chain_conn (groupMembers L n v) u w hm.1 hm.2
    refine sameComponent_mono ?_ hconn
    intro p hp
    exact List.mem_flatMap.mpr ⟨L, hL, List.mem_flatMap.mpr ⟨v, hv, hp⟩⟩
  have hclique_path : ∀ x y, sameComponent (orGraphEdges rules n) x y →
      sameComponent (orGroupsEdges rules n) x y := by
    intro x y
    refine rtg_lift ?_ x y
    rintro u w (huw | hwu)
    · exact hedge_path u w huw
    · exact sameComponent_symm (hedge_path w u hwu)
  have hclique_join : ∀ x y, sameComponent (orGraphEdges rules n) x y →
      joinOfRules rules n x y := by
    intro x y h
    induction h with
    | refl => exact Relation.EqvGen.refl _
    | tail _ hyz ih =>
      refine Relation.EqvGen.trans _ _ _ ih ?_
      rcases hyz with he | he
      · obtain ⟨L, hL, hce⟩ := List.mem_flatMap.mp he
        have hd := cliqueEdges_elim hce
        exact Relation.EqvGen.rel _ _ ⟨hd.1, hd.2.1, L, hL, hd.2.2⟩
      · obtain ⟨L, hL, hce⟩ := List.mem_flatMap.mp he
        have hd := cliqueEdges_elim hce
        exact Relation.EqvGen.symm _ _
          (Relation.EqvGen.rel _ _ ⟨hd.1, hd.2.1, L, hL, hd.2.2⟩)
  have hjoin_clique : ∀ x y, joinOfRules rules n x y →
      sameComponent (orGraphEdges rules n) x y := by
    intro x y h
    induction h with
    | rel u w hr =>
      obtain ⟨hu, hw, L, hL, hlab⟩ := hr
      by_cases hne : u = w
      · exact hne ▸ Relation.ReflTransGen.refl
      · rcases cliqueEdges_intro hu hw hlab hne with hc | hc
        · exact Relation.ReflTransGen.single
            (Or.inl (List.mem_flatMap.mpr ⟨L, hL, hc⟩))
        · exact Relation.ReflTransGen.single
            (Or.inr (List.mem_flatMap.mpr ⟨L, hL, hc⟩))
    | refl u => exact Relation.ReflTransGen.refl
    | symm u w _ ih => exact sameComponent_symm ih
    | trans u w z _ _ ih1 ih2 => exact Relation.ReflTransGen.trans ih1 ih2
  exact ⟨⟨hpath_clique a b, hclique_path a b⟩,
         ⟨hclique_join a b, hjoin_clique a b⟩⟩

/-! ## Round trip: `labels_to_pairs ∘ pairs_to_labels` -/

theorem linkRel_symm {P : List (Nat × Nat)} {x y : Nat}
    (h : linkRel P x y) : linkRel P y x :=
  h.elim Or.inr Or.inl

theorem linkRel_bounds {P : List (Nat × Nat)} {N : Nat}
    (hb : ∀ p ∈ P, p.1 < N ∧ p.2 < N ∧ p.1 ≠ p.2) {x y : Nat}
    (h : linkRel P x y) : x < N ∧ y < N ∧ x ≠ y := by
  rcases h with hm | hm
  · have h1 := hb _ hm
    exact ⟨h1.1, h1.2.1, h1.2.2⟩
  · have h1 := hb _ hm
    exact ⟨h1.2.1, h1.1, Ne.symm h1.2.2⟩

theorem compRel_symm {P : List (Nat × Nat)} {x y : Nat}
    (h : compRel P x y) : compRel P y x :=
  h.elim (fun e => Or.inl e.symm) (fun l => Or.inr (linkRel_symm l))

theorem compRel_trans {P : List (Nat × Nat)} {N : Nat}
    (hb : ∀ p ∈ P, p.1 < N ∧ p.2 < N ∧ p.1 ≠ p.2)
    (ht : ∀ a, a < N → ∀ b, b < N → ∀ c, c < N →
      (linkRel P a b ∧ linkRel P b c ∧ a ≠ c) → linkRel P a c)
    {x y z : Nat} (h1 : compRel P x y) (h2 : compRel P y z) : compRel P x z := by
  rcases h1 with rfl | l1
  · exact h2
  rcases h2 with rfl | l2
  · exact Or.inr l1
  by_cases hxz : x = z
  · exact Or.inl hxz
  · have hby := linkRel_bounds hb l1
    have hbz := linkRel_bounds hb l2
    exact Or.inr (ht x hby.1 y hby.2.1 z hbz.2.1 ⟨l1, l2, hxz⟩)

theorem ptlStep_inv {P : List (Nat × Nat)} {N : Nat}
    (hb : ∀ p ∈ P, p.1 < N ∧ p.2 < N ∧ p.1 ≠ p.2)
    (ht : ∀ a, a < N → ∀ b, b < N → ∀ c, c < N →
      (linkRel P a b ∧ linkRel P b c ∧ a ≠ c) → linkRel P a c)
    {S : PtlState} (hS : ptlInv P N S) {p : Nat × Nat} (hp : p ∈ P) :
    ptlInv P N (ptlStep S p) := by
  obtain ⟨a, b⟩ := p
  have hab : linkRel P a b := Or.inl hp
  have hbd := linkRel_bounds hb hab
  have hU : ∀ y ∈ S.2 (S.1 a) ∪ S.2 (S.1 b), compRel P a y ∧ y < N := by
    intro y hy
    rcases Finset.mem_union.mp hy with hy | hy
    · have h1 := (hS a).2 y hy
      refine ⟨h1.1, ?_⟩
      rcases h1.2 with rfl | h2
      · exact hbd.1
      · exact h2
    · have h1 := (hS b).2 y hy
      refine ⟨compRel_trans hb ht (Or.inr hab) h1.1, ?_⟩
      rcases h1.2 with rfl | h2
      · exact hbd.2.1
      · exact h2
  intro x
  simp only [ptlStep]
  by_cases hxb : x = b
  · subst hxb
    rw [Function.update_same, Function.update_same]
    constructor
    · exact Finset.mem_union_right _ (hS x).1
    · intro y hy
      have h2 := hU y hy
      exact ⟨compRel_trans hb ht (compRel_symm (Or.inr hab)) h2.1, Or.inr h2.2⟩
  · rw [Function.update_noteq hxb]
    by_cases hsa : S.1 x = S.1 a
    · rw [hsa, Function.update_same]
      have hxa : compRel P a x := ((hS a).2 x (hsa ▸ (hS x).1)).1
      constructor
      · exact Finset.mem_union_left _ (hsa ▸ (hS x).1)
      · intro y hy
        have h2 := hU y hy
        exact ⟨compRel_trans hb ht (compRel_symm hxa) h2.1, Or.inr h2.2⟩
    · rw [Function.update_noteq hsa]
      exact hS x

theorem ptlStep_mono {S : PtlState} (p : Nat × Nat) (x y : Nat)
    (hy : y ∈ S.2 (S.1 x)) : y ∈ (ptlStep S p).2 ((ptlStep S p).1 x) := by
  obtain ⟨a, b⟩ := p
  simp only [ptlStep]
  by_cases hxb : x = b
  · subst hxb
    rw [Function.update_same, Function.update_same]
    exact Finset.mem_union_right _ hy
  · rw [Function.update_noteq hxb]
    by_cases hsa : S.1 x = S.1 a
    · rw [hsa, Function.update_same]
      exact Finset.mem_union_left _ (hsa ▸ hy)
    · rw [Function.update_noteq hsa]
      exact hy

theorem ptlStep_edge {S : PtlState} (hS1 : ∀ x, x ∈ S.2 (S.1 x)) (a b : Nat) :
    b ∈ (ptlStep S (a, b)).2 ((ptlStep S (a, b)).1 a) ∧
    a ∈ (ptlStep S (a, b)).2 ((ptlStep S (a, b)).1 b) := by
  simp only [ptlStep]
  constructor
  · have hpa : Function.update S.1 b (S.1 a) a = S.1 a := by
      by_cases hba : a = b
      · subst hba
        exact Function.update_same a (S.1 a) S.1
      · exact Function.update_noteq hba _ _
    rw [hpa, Function.update_same]
    exact Finset.mem_union_right _ (hS1 b)
  · rw [Function.update_same, Function.update_same]
    exact Finset.mem_union_left _ (hS1 a)

theorem ptl_fold {P : List (Nat × Nat)} {N : Nat}
    (hb : ∀ p ∈ P, p.1 < N ∧ p.2 < N ∧ p.1 ≠ p.2)
    (ht : ∀ a, a < N → ∀ b, b < N → ∀ c, c < N →
      (linkRel P a b ∧ linkRel P b c ∧ a ≠ c) → linkRel P a c) :
    ∀ (Q : List (Nat × Nat)) (S : PtlState), (∀ p ∈ Q, p ∈ P) → ptlInv P N S →
      ptlInv P N (Q.foldl ptlStep S) ∧
      (∀ x y, y ∈ S.2 (S.1 x) →
        y ∈ (Q.foldl ptlStep S).2 ((Q.foldl ptlStep S).1 x)) ∧
      (∀ p ∈ Q, p.2 ∈ (Q.foldl ptlStep S).2 ((Q.foldl ptlStep S).1 p.1) ∧
        p.1 ∈ (Q.foldl ptlStep S).2 ((Q.foldl ptlStep S).1 p.2)) := by
  intro Q
  induction Q with
  | nil =>
    intro S _ hS
    exact ⟨hS, fun x y hy => hy, fun p hp => absurd hp (List.not_mem_nil p)⟩
  | cons q Q ih =>
    intro S hQ hS
    have hq : q ∈ P := hQ q (List.mem_cons_self _ _)
    have hS' : ptlInv P N (ptlStep S q) := ptlStep_inv hb ht hS hq
    have hrest := ih (ptlStep S q) (fun p hp => hQ p (List.mem_cons_of_mem _ hp)) hS'
    refine ⟨hrest.1, ?_, ?_⟩
    · intro x y hy
      exact hrest.2.1 x y (ptlStep_mono q x y hy)
    · intro p hp
      rcases List.mem_cons.mp hp with rfl | hp2
      · have hed := ptlStep_edge (fun x => (hS x).1) p.1 p.2
        exact ⟨hrest.2.1 _ _ hed.1, hrest.2.1 _ _ hed.2⟩
      · exact hrest.2.2 p hp2

theorem nodeMatches_char {P : List (Nat × Nat)} {N : Nat}
    (hb : ∀ p ∈ P, p.1 < N ∧ p.2 < N ∧ p.1 ≠ p.2)
    (ht : ∀ a, a < N → ∀ b, b < N → ∀ c, c < N →
      (linkRel P a b ∧ linkRel P b c ∧ a ≠ c) → linkRel P a c) :
    ∀ x, x < N → ∀ y, (y ∈ nodeMatches P x ↔ (y < N ∧ compRel P x y)) := by
  have hinv0 : ptlInv P N (id, fun i => ({i} : Finset Nat)) := by
    intro z
    refine ⟨Finset.mem_singleton_self z, ?_⟩
    intro y hy
    have hyz : y = z := Finset.mem_singleton.mp hy
    subst hyz
    exact ⟨Or.inl rfl, Or.inl rfl⟩
  have hfold := ptl_fold hb ht P (id, fun i => ({i} : Finset Nat))
    (fun p hp => hp) hinv0
  intro x hx y
  show y ∈ (ptlState P).2 ((ptlState P).1 x) ↔ _
  constructor
  · intro hy
    have h2 := (hfold.1 x).2 y hy
    refine ⟨?_, h2.1⟩
    rcases h2.2 with rfl | h3
    · exact hx
    · exact h3
  · rintro ⟨hyN, hcomp⟩
    rcases hcomp with rfl | hl
    · exact (hfold.1 x).1
    · rcases hl with hm | hm
      · exact (hfold.2.2 (x, y) hm).1
      · exact (hfold.2.2 (y, x) hm).2

theorem labStep_inv {P : List (Nat × Nat)} {N : Nat}
    (hb : ∀ p ∈ P, p.1 < N ∧ p.2 < N ∧ p.1 ≠ p.2)
    (ht : ∀ a, a < N → ∀ b, b < N → ∀ c, c < N →
      (linkRel P a b ∧ linkRel P b c ∧ a ≠ c) → linkRel P a c)
    {M : Nat → Finset Nat}
    (hM : ∀ x, x < N → ∀ y, (y ∈ M x ↔ (y < N ∧ compRel P x y)))
    {n : Nat} (hn : n < N) {done : List Nat} {s : (Nat → Int) × Nat}
    (hinv : labInv P N done s) :
    labInv P N (done ++ [n]) (labStep M false s n) := by
  obtain ⟨hA, hF, hB, hD, hE⟩ := hinv
  have hmem : ∀ y, y ∈ M n ↔ (y < N ∧ compRel P n y) := hM n hn
  by_cases h0 : 0 ≤ s.1 n
  · rw [labStep, if_pos h0]
    refine ⟨hA, hF, hB, ?_, hE⟩
    intro i hi
    rcases List.mem_append.mp hi with hi | hi
    · exact hD i hi
    · rw [List.mem_singleton] at hi
      subst hi
      exact h0
  · rw [labStep, if_neg h0, if_neg (by simp)]
    unfold labInv
    dsimp only
    refine ⟨?_, ?_, ?_, ?_, ?_⟩
    · intro y hy
      by_cases hyM : y ∈ M n
      · rw [if_pos hyM]
        push_cast
        omega
      · rw [if_neg hyM]
        rw [show (if y ∈ M n then (s.2 : Int) else s.1 y) = s.1 y from
          if_neg hyM] at hy
        have := hA y hy
        push_cast
        omega
    · intro y hy
      by_cases hyM : y ∈ M n
      · exact ((hmem y).mp hyM).1
      · rw [show (if y ∈ M n then (s.2 : Int) else s.1 y) = s.1 y from
          if_neg hyM] at hy
        exact hF y hy
    · intro y z hy heq
      by_cases hyM : y ∈ M n
      · by_cases hzM : z ∈ M n
        · exact compRel_trans hb ht (compRel_symm ((hmem y).mp hyM).2)
            ((hmem z).mp hzM).2
        · exfalso
          rw [if_pos hyM, if_neg hzM] at heq
          have hz0 : 0 ≤ s.1 z := by omega
          have := hA z hz0
          omega
      · by_cases hzM : z ∈ M n
        · exfalso
          rw [if_neg hyM, if_pos hzM] at heq
          rw [if_neg hyM] at hy
          have := hA y hy
          omega
        · rw [if_neg hyM] at hy heq
          rw [if_neg hzM] at heq
          exact hB y z hy heq
    · intro i hi
      rcases List.mem_append.mp hi with hi | hi
      · have := hD i hi
        by_cases hiM : i ∈ M n
        · rw [if_pos hiM]
          omega
        · rw [if_neg hiM]
          exact this
      · rw [List.mem_singleton] at hi
        have hnM : n ∈ M n := (hmem n).mpr ⟨hn, Or.inl rfl⟩
        rw [hi, if_pos hnM]
        omega
    · intro y z hcomp hyN hzN hy0
      by_cases hyM : y ∈ M n
      · have hzM : z ∈ M n := (hmem z).mpr
          ⟨hzN, compRel_trans hb ht ((hmem y).mp hyM).2 hcomp⟩
        rw [if_pos hyM, if_pos hzM]
      · have hzM : z ∉ M n := by
          intro hzM
          exact hyM ((hmem y).mpr
            ⟨hyN, compRel_trans hb ht ((hmem z).mp hzM).2 (compRel_symm hcomp)⟩)
        rw [if_neg hyM] at hy0 ⊢
        rw [if_neg hzM]
        exact hE y z hcomp hyN hzN hy0

theorem lab_fold {P : List (Nat × Nat)} {N : Nat}
    (hb : ∀ p ∈ P, p.1 < N ∧ p.2 < N ∧ p.1 ≠ p.2)
    (ht : ∀ a, a < N → ∀ b, b < N → ∀ c, c < N →
      (linkRel P a b ∧ linkRel P b c ∧ a ≠ c) → linkRel P a c)
    {M : Nat → Finset Nat}
    (hM : ∀ x, x < N → ∀ y, (y ∈ M x ↔ (y < N ∧ compRel P x y))) :
    ∀ (nodes done : List Nat) (s : (Nat → Int) × Nat),
      (∀ n ∈ nodes, n < N) → labInv P N done s →
      labInv P N (done ++ nodes) (nodes.foldl (labStep M false) s) := by
  intro nodes
  induction nodes with
  | nil =>
    intro done s _ hinv
    simpa using hinv
  | cons n rest ih =>
    intro done s hns hinv
    have h1 := labStep_inv hb ht hM (hns n (List.mem_cons_self _ _)) hinv
    have h2 := ih (done ++ [n]) _
      (fun m hm => hns m (List.mem_cons_of_mem _ hm)) h1
    rw [List.append_assoc, List.singleton_append] at h2
    exact h2

theorem getD_map_range (f : Nat → Int) {N i : Nat} (h : i < N) :
    ((List.range N).map f).getD i 0 = f i := by
  have hl : i < ((List.range N).map f).length := by simpa using h
  rw [List.getD_eq_getElem _ _ hl]
  simp

/-- Claim C1: for every mention count `N` and every transitively closed list of
linked pairs over `[0, N)` (distinct in-range endpoints, and links compose),
`labels_to_pairs (pairs_to_labels P N)` links exactly the same unordered
pairs as `P`. -/
theorem pairs_labels_roundtrip (P : List (Nat × Nat)) (N : Nat)
    (hb : ∀ p ∈ P, p.1 < N ∧ p.2 < N ∧ p.1 ≠ p.2)
    (ht : ∀ a, a < N → ∀ b, b < N → ∀ c, c < N →
      (linkRel P a b ∧ linkRel P b c ∧ a ≠ c) → linkRel P a c) :
    ∀ x y, (linkRel (labels_to_pairs (pairs_to_labels P N false)) x y ↔
      linkRel P x y) := by
  have hM := nodeMatches_char hb ht
  have hinv0 : labInv P N [] ((fun _ => -1), 0) := by
    refine ⟨?_, ?_, ?_, ?_, ?_⟩
    · intro y hy
      exact absurd hy (by norm_num)
    · intro y hy
      exact absurd hy (by norm_num)
    · intro y z hy
      exact absurd hy (by norm_num)
    · intro i hi
      exact absurd hi (List.not_mem_nil i)
    · intro y z _ _ _ hy
      exact absurd hy (by norm_num)
  have hfold := lab_fold hb ht hM (List.range N) [] _
    (fun n hn => List.mem_range.mp hn) hinv0
  rw [List.nil_append] at hfold
  obtain ⟨hA, hF, hB, hD, hE⟩ := hfold
  set s := (List.range N).foldl (labStep (nodeMatches P) false)
    ((fun _ => -1), 0) with hs
  have hf0 : ∀ i, i < N → 0 ≤ s.1 i := fun i hi =>
    hD i (List.mem_range.mpr hi)
  have hiff : ∀ i j, i < N → j < N → (s.1 i = s.1 j ↔ compRel P i j) := by
    intro i j hi hj
    exact ⟨fun he => hB i j (hf0 i hi) he,
           fun hc => hE i j hc hi hj (hf0 i hi)⟩
  have hptl : pairs_to_labels P N false = (List.range N).map s.1 := rfl
  have hlen : (pairs_to_labels P N false).length = N := by
    rw [hptl, List.length_map, List.length_range]
  have hget : ∀ i, i < N → (pairs_to_labels P N false).getD i 0 = s.1 i := by
    intro i hi
    rw [hptl]
    exact getD_map_range s.1 hi
  intro x y
  constructor
  · rintro (hm | hm)
    · obtain ⟨hyx, hxlen, heq⟩ := (labels_to_pairs_mem _ x y).mp hm
      have hxN : x < N := by rwa [hlen] at hxlen
      have hyN : y < N := lt_trans hyx hxN
      rw [hget x hxN, hget y hyN] at heq
      rcases (hiff x y hxN hyN).mp heq with rfl | hl
      · exact absurd hyx (lt_irrefl _)
      · exact hl
    · obtain ⟨hxy, hylen, heq⟩ := (labels_to_pairs_mem _ y x).mp hm
      have hyN : y < N := by rwa [hlen] at hylen
      have hxN : x < N := lt_trans hxy hyN
      rw [hget y hyN, hget x hxN] at heq
      rcases (hiff y x hyN hxN).mp heq with he | hl
      · exact absurd he.symm (Nat.ne_of_lt hxy)
      · exact linkRel_symm hl
  · intro hl
    obtain ⟨hxN, hyN, hne⟩ := linkRel_bounds hb hl
    have heq : s.1 x = s.1 y := (hiff x y hxN hyN).mpr (Or.inr hl)
    rcases Nat.lt_or_ge y x with hyx | hge
    · exact Or.inl ((labels_to_pairs_mem _ x y).mpr
        ⟨hyx, by rwa [hlen], by rw [hget x hxN, hget y hyN]; exact heq⟩)
    · have hxy : x < y := Nat.lt_of_le_of_ne hge hne
      exact Or.inr ((labels_to_pairs_mem _ y x).mpr
        ⟨hxy, by rwa [hlen], by rw [hget y hyN, hget x hxN]; exact heq.symm⟩)

/-- Claim C1, witness: the docstring example — the transitively closed pair
list `[(1,0),(3,0),(3,1)]` over 4 mentions round-trips. -/
theorem pairs_labels_roundtrip_witness :
    linkRel (labels_to_pairs
      (pairs_to_labels [(1, 0), (3, 0), (3, 1)] 4 false)) 3 0 ↔
      linkRel [(1, 0), (3, 0), (3, 1)] 3 0 :=
  pairs_labels_roundtrip [(1, 0), (3, 0), (3, 1)] 4 (by decide) (by decide) 3 0

end Dedup
